import Mathlib

/-!
Verification of the PolM trading bot against its specification.

Shallow embedding conventions:
 - instants (timezone-aware UTC datetimes) are modelled as integers (seconds
   since the epoch); a datetime that could not be parsed is modelled as none;
 - prices and stake amounts (Python floats) are modelled as rationals;
 - slugs (Python strings) are modelled as lists of characters;
 - the side-effecting Python methods are modelled as pure functions on the
   relevant pieces of state, with printing and network calls dropped.
-/

/-! ### src/gamma.py : liveness classification -/

/-- Status assigned to a discovery candidate by the primary liveness filter. -/
inductive LiveStatus where
  | live
  | future
  | past
  | unknown_time
deriving DecidableEq

/-- Model of GammaAPI._is_candidate_live_now (src/gamma.py lines 220-264).
The two calls to _parse_candidate_datetime are abstracted into the two
Option-valued arguments: none models a start or end that could not be parsed
(any exception raised while parsing also yields none in the source, hence the
same unknown_time outcome). -/
def is_candidate_live_now (start_dt end_dt : Option ℤ) (now : ℤ) : Bool × LiveStatus :=
  match start_dt, end_dt with
  | some s, some e =>
      if 86400 ≤ e - s then (false, LiveStatus.unknown_time)
      else if s ≤ now ∧ now < e then (true, LiveStatus.live)
      else if now < s then (false, LiveStatus.future)
      else (false, LiveStatus.past)
  | _, _ => (false, LiveStatus.unknown_time)

/-- Model of GammaAPI._is_market_live (src/gamma.py lines 517-548), the legacy
fallback liveness check.  Unlike the primary filter it returns only a Bool and
performs no duration check. -/
def is_market_live (start_dt end_dt : Option ℤ) (now : ℤ) : Bool :=
  match start_dt, end_dt with
  | some s, some e => decide (s ≤ now ∧ now < e)
  | _, _ => false

/-! ### src/main.py : cross-validation in the trading cycle -/

/-- Outcome of the price checks at the start of PolymrketBot._trading_cycle. -/
inductive CycleOutcome where
  | abort_no_feed_price
  | abort_cross_validation
  | proceed
deriving DecidableEq

/-- Model of the feed-price availability check and the RTDS versus
price-to-beat cross-validation in PolymrketBot._trading_cycle
(src/main.py lines 294-332).  current_price is the result of
candles.get_latest_price (none when no tick was ever absorbed). -/
def trading_cycle_validation (current_price : Option ℚ) (price_to_beat : ℚ) : CycleOutcome :=
  match current_price with
  | none => CycleOutcome.abort_no_feed_price
  | some cp =>
      let r := if 0 < price_to_beat then cp / price_to_beat else 0
      if r < 1/2 ∨ 2 < r then CycleOutcome.abort_cross_validation
      else CycleOutcome.proceed

/-! ### src/gamma.py : live-market selection -/

/-- Normalized discovery candidate as assembled by
GammaAPI._extract_candidates_from_events; only the fields that the selection
step reads are modelled (the parsed end instant, with none for an end that
_parse_candidate_datetime could not parse, and the slug for identity). -/
structure MarketCandidate where
  slug : List Char
  start_dt : Option ℤ
  end_dt : Option ℤ
deriving DecidableEq

/-- Sort key used by GammaAPI._select_best_live_market (src/gamma.py lines
334-339): the parsed end instant, with datetime.max as a sentinel for an
unparseable end, modelled as the top element. -/
def candidate_sort_key (c : MarketCandidate) : WithTop ℤ :=
  match c.end_dt with
  | none => ⊤
  | some e => (e : WithTop ℤ)

/-- Boolean comparison on candidates induced by candidate_sort_key. -/
def candidate_le (a b : MarketCandidate) : Bool :=
  candidate_sort_key a ≤ candidate_sort_key b

/-- Model of GammaAPI._select_best_live_market (src/gamma.py lines 317-344):
sort the live candidates by end instant (a stable sort, like Python sorted)
and return the first, or none for an empty list. -/
def select_best_live_market (live_markets : List MarketCandidate) : Option MarketCandidate :=
  if live_markets.isEmpty then none
  else (live_markets.mergeSort candidate_le).head?

/-! ### src/stake_manager.py : the progressive stake ledger -/

/-- Stake configuration (StakeManager.__init__, src/stake_manager.py lines
13-25): defaults base 2.0, max 1024.0, max streak 15, reset on max streak. -/
structure StakeConfig where
  base_stake : ℚ
  max_stake : ℚ
  max_win_streak : ℕ
  reset_on_max_streak : Bool
deriving DecidableEq

/-- The mutable stake state read and written by StakeManager: current stake
and win streak (the daily statistics are not modelled, no claim reads them). -/
structure StakeState where
  current_stake : ℚ
  win_streak : ℕ
deriving DecidableEq

/-- Trade result: W, L, or S (any string other than W or L is treated as a
skip by the source). -/
inductive TradeResult where
  | win
  | loss
  | skip
deriving DecidableEq

/-- Model of StakeManager.calculate_next_stake (src/stake_manager.py lines
72-115).  On the max-streak path the reset and pause branches of the source
both return the base stake, so the reset_on_max_streak flag does not change
the returned value. -/
def calculate_next_stake (cfg : StakeConfig) (st : StakeState) : TradeResult → ℚ
  | TradeResult.win =>
      let new_streak := st.win_streak + 1
      if cfg.max_win_streak ≤ new_streak then
        if cfg.reset_on_max_streak then cfg.base_stake else cfg.base_stake
      else
        let next_stake := st.current_stake * 2
        if cfg.max_stake < next_stake then cfg.max_stake else next_stake
  | TradeResult.loss => cfg.base_stake
  | TradeResult.skip => st.current_stake

/-- Model of StakeManager.update_after_result (src/stake_manager.py lines
117-180) restricted to the stake and streak fields it writes. -/
def update_after_result (cfg : StakeConfig) (st : StakeState) (result : TradeResult) :
    StakeState :=
  let next_stake := calculate_next_stake cfg st result
  let new_streak :=
    match result with
    | TradeResult.win => min (st.win_streak + 1) cfg.max_win_streak
    | TradeResult.loss => 0
    | TradeResult.skip => st.win_streak
  ⟨next_stake, new_streak⟩

/-- A sequence of trade results applied to the ledger in order. -/
def applyResults (cfg : StakeConfig) (st : StakeState) (results : List TradeResult) :
    StakeState :=
  results.foldl (update_after_result cfg) st

/-! ### src/ta.py : technical indicators -/

/-- One row of the OHLC dataframe produced by CandleBuilder.get_dataframe and
consumed by TechnicalAnalysis. -/
structure OhlcRow where
  open_ : ℚ
  high : ℚ
  low : ℚ
  close : ℚ
deriving DecidableEq

/-- Tail of the recursive EMA: given the smoothing weight and the previous
smoothed value, the smoothed values of the remaining data points. -/
def ewmTail (a prev : ℚ) : List ℚ → List ℚ
  | [] => []
  | x :: rest =>
      let y := (1 - a) * prev + a * x
      y :: ewmTail a y rest

/-- Model of pandas Series.ewm(span=period, adjust=False).mean(): the
recursive EMA with weight 2/(period+1), seeded with the first value. -/
def ewm_mean (period : ℕ) (xs : List ℚ) : List ℚ :=
  match xs with
  | [] => []
  | x :: rest => x :: ewmTail (2 / ((period : ℚ) + 1)) x rest

/-- Model of TechnicalAnalysis.calculate_ema (src/ta.py lines 13-25). -/
def calculate_ema (df : List OhlcRow) (period : ℕ) : List ℚ :=
  ewm_mean period (df.map OhlcRow.close)

/-- True-range values of the rows after the first, each computed against the
previous row's close. -/
def trTail (prev : OhlcRow) : List OhlcRow → List ℚ
  | [] => []
  | r :: rest =>
      max (r.high - r.low) (max |r.high - prev.close| |r.low - prev.close|) :: trTail r rest

/-- True-range series of TechnicalAnalysis.calculate_atr (src/ta.py lines
38-48): the first row has no previous close, so its shifted components are
NaN and the pandas row-wise max skips them, leaving high - low. -/
def true_range (df : List OhlcRow) : List ℚ :=
  match df with
  | [] => []
  | r :: rest => (r.high - r.low) :: trTail r rest

/-- Model of TechnicalAnalysis.calculate_atr (src/ta.py lines 27-53): the EMA
of the true range. -/
def calculate_atr (df : List OhlcRow) (period : ℕ) : List ℚ :=
  ewm_mean period (true_range df)

/-- Model of TechnicalAnalysis.calculate_percent_return followed by iloc[-1]
(src/ta.py lines 55-67 and 106-108): pandas pct_change(n) leaves the first n
entries NaN (modelled none), so the last entry carries a value exactly when
the series is longer than n. -/
def percent_return_last (df : List OhlcRow) (periods : ℕ) : Option ℚ :=
  let closes := df.map OhlcRow.close
  if periods < closes.length then
    some ((closes.getD (closes.length - 1) 0 /
      closes.getD (closes.length - 1 - periods) 0 - 1) * 100)
  else none

/-- Latest indicator values returned by TechnicalAnalysis.get_indicators. -/
structure IndicatorValues where
  ema_fast : Option ℚ
  ema_slow : Option ℚ
  atr : Option ℚ
  returns : List (ℕ × Option ℚ)
  close : Option ℚ
deriving DecidableEq

/-- Model of TechnicalAnalysis.get_indicators (src/ta.py lines 69-119); for
the empty dataframe the source returns a dictionary with no returns entries
and no close entry, modelled as an empty list and none. -/
def get_indicators (df : List OhlcRow) (ema_fast ema_slow atr_period : ℕ)
    (return_periods : List ℕ) : IndicatorValues :=
  if df.length = 0 then
    ⟨none, none, none, [], none⟩
  else
    ⟨(calculate_ema df ema_fast).getLast?,
     (calculate_ema df ema_slow).getLast?,
     (calculate_atr df atr_period).getLast?,
     return_periods.map (fun p => (p, percent_return_last df p)),
     (df.map OhlcRow.close).getLast?⟩

/-! ### src/gamma.py : events pagination -/

/-- One listing item of the events endpoint, restricted to the fields the
candidate extraction reads: its own slug, the slugs of its nested markets,
and the auxiliary tickers and slugs arrays. -/
structure EventItem where
  slug : List Char
  markets : List (List Char)
  tickers : List (List Char)
  slugs : List (List Char)
deriving DecidableEq

/-- Candidate slugs contributed by one event in
GammaAPI._extract_candidates_from_events (src/gamma.py lines 154-218): the
event slug when it matches the prefix, then each matching nested market slug,
then each matching entry of the tickers array (or, when tickers is empty or
absent, of the slugs array - the Python expression tickers or slugs). -/
def candidates_of_event (pfx : List Char) (e : EventItem) : List (List Char) :=
  (if pfx.isPrefixOf e.slug then [e.slug] else [])
    ++ e.markets.filter (fun s => pfx.isPrefixOf s)
    ++ (if e.tickers.isEmpty then e.slugs else e.tickers).filter
        (fun s => pfx.isPrefixOf s)

/-- Model of GammaAPI._extract_candidates_from_events (src/gamma.py lines
154-218), accumulating candidates over the page in order. -/
def extract_candidates_from_events (events : List EventItem) (pfx : List Char) :
    List (List Char) :=
  events.foldl (fun acc e => acc ++ candidates_of_event pfx e) []

/-- The pagination loop of GammaAPI.discover_15m_event_via_events_api
(src/gamma.py lines 49-93), parameterized by the upstream endpoint: fetch
takes the limit and offset request parameters and returns the decoded page.
The result pairs the (limit, offset) parameters of every request actually
issued with the accumulated candidates; the fuel argument is the number of
pages the loop may still fetch (max_pages minus pages already fetched). -/
def events_pages_loop (fetch : ℕ → ℕ → List EventItem) (pfx : List Char)
    (max_candidates limit : ℕ) :
    ℕ → ℕ → List (List Char) → List (ℕ × ℕ) × List (List Char)
  | 0, _, acc => ([], acc)
  | fuel + 1, offset, acc =>
      let events := fetch limit offset
      if events.isEmpty then ([(limit, offset)], acc)
      else
        let acc2 := acc ++ extract_candidates_from_events events pfx
        if max_candidates ≤ acc2.length then ([(limit, offset)], acc2)
        else
          let rest := events_pages_loop fetch pfx max_candidates limit fuel
            (offset + limit) acc2
          ((limit, offset) :: rest.1, rest.2)

/-- The pagination stage of GammaAPI.discover_15m_event_via_events_api
(src/gamma.py lines 49-98): page size 200, offset starting at 0. -/
def discover_events_pagination (fetch : ℕ → ℕ → List EventItem) (pfx : List Char)
    (max_candidates max_pages : ℕ) : List (ℕ × ℕ) × List (List Char) :=
  events_pages_loop fetch pfx max_candidates 200 max_pages 0 []

/-- Upstream endpoint used by the pagination witness: one event on the first
page, nothing afterwards. -/
def sampleFetch : ℕ → ℕ → List EventItem :=
  fun _ offset => if offset = 0 then [⟨['b', 't', 'c', '-'], [], [], []⟩] else []

/-! ### src/candles.py : OHLC candle aggregation -/

/-- Model of the Candle class (src/candles.py lines 10-48): timestamp is the
interval start instant, the four OHLC fields start unset, volume counts the
absorbed ticks. -/
structure Candle where
  timestamp : ℤ
  open_ : Option ℚ
  high : Option ℚ
  low : Option ℚ
  close : Option ℚ
  volume : ℕ
deriving DecidableEq

/-- Candle.__init__: a fresh candle with no OHLC fields set. -/
def Candle.mkEmpty (timestamp : ℤ) : Candle :=
  ⟨timestamp, none, none, none, none, 0⟩

/-- Model of Candle.update (src/candles.py lines 21-33): open is set by the
first tick only, high and low are running extrema, close is the last price,
volume counts ticks. -/
def Candle.update (c : Candle) (price : ℚ) : Candle :=
  let c1 :=
    match c.open_ with
    | none => { c with open_ := some price }
    | some _ => c
  let c2 :=
    match c1.high with
    | none => { c1 with high := some price }
    | some h => if h < price then { c1 with high := some price } else c1
  let c3 :=
    match c2.low with
    | none => { c2 with low := some price }
    | some l => if price < l then { c2 with low := some price } else c2
  { c3 with close := some price, volume := c3.volume + 1 }

/-- Model of Candle.is_complete (src/candles.py lines 35-37): all four OHLC
fields are set. -/
def Candle.is_complete (c : Candle) : Bool :=
  c.open_.isSome && c.high.isSome && c.low.isSome && c.close.isSome

/-- Model of the CandleBuilder state (src/candles.py lines 51-63). -/
structure CandleBuilder where
  interval_seconds : ℤ
  max_candles : ℕ
  candles : List Candle
  current_candle : Option Candle
deriving DecidableEq

/-- CandleBuilder.__init__: empty history, no in-progress candle. -/
def CandleBuilder.init (interval_seconds : ℤ) (max_candles : ℕ) : CandleBuilder :=
  ⟨interval_seconds, max_candles, [], none⟩

/-- Model of CandleBuilder._round_to_interval (src/candles.py lines 91-103):
floor the epoch timestamp to a multiple of the interval (Python floor
division). -/
def round_to_interval (interval_seconds timestamp : ℤ) : ℤ :=
  timestamp.fdiv interval_seconds * interval_seconds

/-- The history trimming step of CandleBuilder.add_tick (src/candles.py lines
81-83): when the history exceeds max_candles, Python keeps candles[-max:],
the last max entries - except that for max = 0 the slice [-0:] is the whole
list, so nothing is trimmed. -/
def trim_candles (max_candles : ℕ) (cs : List Candle) : List Candle :=
  if max_candles < cs.length then
    (if max_candles = 0 then cs else cs.drop (cs.length - max_candles))
  else cs

/-- Model of CandleBuilder.add_tick (src/candles.py lines 65-89): on an
interval change the superseded in-progress candle is appended to the trimmed
history when complete, a fresh candle for the new interval begins, and the
tick then updates the in-progress candle. -/
def CandleBuilder.add_tick (b : CandleBuilder) (price : ℚ) (timestamp : ℤ) :
    CandleBuilder :=
  let candle_time := round_to_interval b.interval_seconds timestamp
  let need_new :=
    match b.current_candle with
    | none => true
    | some cur => cur.timestamp ≠ candle_time
  let b1 :=
    if need_new then
      let b2 :=
        match b.current_candle with
        | some cur =>
            if cur.is_complete then
              { b with candles := trim_candles b.max_candles (b.candles ++ [cur]) }
            else b
        | none => b
      { b2 with current_candle := some (Candle.mkEmpty candle_time) }
    else b
  match b1.current_candle with
  | some cur => { b1 with current_candle := some (cur.update price) }
  | none => b1

/-- A tick stream folded into the builder; a tick is (price, timestamp). -/
def feedTicks (b : CandleBuilder) (ticks : List (ℚ × ℤ)) : CandleBuilder :=
  ticks.foldl (fun b t => b.add_tick t.1 t.2) b

/-- Model of CandleBuilder.get_candles without the count truncation
(src/candles.py lines 105-119): the candles of the history reported as
complete. -/
def get_candles (b : CandleBuilder) : List Candle :=
  b.candles.filter Candle.is_complete

/-- One step of the run decomposition of a tick stream: the tick either
extends the run it arrives in or begins a new run for its interval. -/
def runStep (interval_seconds : ℤ) (acc : List (ℤ × List (ℚ × ℤ))) (t : ℚ × ℤ) :
    List (ℤ × List (ℚ × ℤ)) :=
  let T := round_to_interval interval_seconds t.2
  match acc.getLast? with
  | some r =>
      if r.1 = T then acc.dropLast ++ [(r.1, r.2 ++ [t])]
      else acc ++ [(T, [t])]
  | none => [(T, [t])]

/-- Decomposition of a tick stream into maximal runs of consecutive ticks
falling in the same interval, each tagged with its interval start; one run is
the unit from which add_tick builds one candle. -/
def tickRuns (interval_seconds : ℤ) (ticks : List (ℚ × ℤ)) :
    List (ℤ × List (ℚ × ℤ)) :=
  ticks.foldl (runStep interval_seconds) []

/-- The candle built by folding the ticks of one run into a fresh candle. -/
def candleOfRun (T : ℤ) (run : List (ℚ × ℤ)) : Candle :=
  run.foldl (fun c t => c.update t.1) (Candle.mkEmpty T)

/-- Prices of the ticks that fall in the interval starting at T, in arrival
order; this follows the words of the specification sentence about the running
extrema of all prices seen in an interval. -/
def pricesInInterval (interval_seconds : ℤ) (ticks : List (ℚ × ℤ)) (T : ℤ) :
    List ℚ :=
  (ticks.filter (fun t => round_to_interval interval_seconds t.2 = T)).map Prod.fst

/-! ### Theorems -/

/-- C1: for every candidate and instant, the primary liveness filter assigns
exactly one status; an unparseable start or end yields unknown_time (never
live), a span of at least 86400 seconds yields unknown_time, and otherwise the
candidate is live exactly when start <= now < end, future exactly when
now < start, and past otherwise. -/
theorem candidate_liveness_partition (start_dt end_dt : Option ℤ) (now : ℤ) :
    ((is_candidate_live_now start_dt end_dt now).1 = true ↔
      (is_candidate_live_now start_dt end_dt now).2 = LiveStatus.live) ∧
    ((start_dt = none ∨ end_dt = none) →
      is_candidate_live_now start_dt end_dt now = (false, LiveStatus.unknown_time)) ∧
    (∀ s e, start_dt = some s → end_dt = some e → 86400 ≤ e - s →
      is_candidate_live_now start_dt end_dt now = (false, LiveStatus.unknown_time)) ∧
    (∀ s e, start_dt = some s → end_dt = some e → e - s < 86400 →
      (((is_candidate_live_now start_dt end_dt now).2 = LiveStatus.live ↔
          (s ≤ now ∧ now < e)) ∧
       ((is_candidate_live_now start_dt end_dt now).2 = LiveStatus.future ↔ now < s) ∧
       ((is_candidate_live_now start_dt end_dt now).2 = LiveStatus.past ↔
          (¬ now < s ∧ ¬ now < e)))) := by
  obtain _ | s := start_dt <;> obtain _ | e := end_dt
  · simp [is_candidate_live_now]
  · simp [is_candidate_live_now]
  · simp [is_candidate_live_now]
  · refine ⟨?_, by simp, ?_, ?_⟩
    · by_cases hdur : 86400 ≤ e - s
      · simp [is_candidate_live_now, hdur]
      · by_cases hlive : s ≤ now ∧ now < e
        · simp [is_candidate_live_now, hdur, hlive]
        · by_cases hfut : now < s <;>
            simp [is_candidate_live_now, hdur, hlive, hfut]
    · rintro s' e' ⟨rfl⟩ ⟨rfl⟩ hdur
      simp [is_candidate_live_now, hdur]
    · rintro s' e' ⟨rfl⟩ ⟨rfl⟩ hdur
      have hd : ¬ 86400 ≤ e - s := not_le.2 hdur
      by_cases hlive : s ≤ now ∧ now < e
      · refine ⟨?_, ?_, ?_⟩ <;>
          simp only [is_candidate_live_now, if_neg hd, if_pos hlive] <;> simp <;> omega
      · by_cases hfut : now < s
        · refine ⟨?_, ?_, ?_⟩ <;>
            simp only [is_candidate_live_now, if_neg hd, if_neg hlive, if_pos hfut] <;>
            simp <;> omega
        · refine ⟨?_, ?_, ?_⟩ <;>
            simp only [is_candidate_live_now, if_neg hd, if_neg hlive, if_neg hfut] <;>
            simp <;> omega

/-- Witness for candidate_liveness_partition: a candidate running from 0 to
900 seconds is live at instant 10, and an unparseable end is unknown_time. -/
theorem candidate_liveness_partition_witness :
    (is_candidate_live_now (some 0) (some 900) 10).2 = LiveStatus.live ∧
    is_candidate_live_now (some 0) none 10 = (false, LiveStatus.unknown_time) :=
  ⟨(((candidate_liveness_partition (some 0) (some 900) 10).2.2.2 0 900 rfl rfl
      (by decide)).1).mpr (by decide),
   (candidate_liveness_partition (some 0) none 10).2.1 (Or.inr rfl)⟩

/-- C3 counterexample: the legacy liveness filter _is_market_live performs no
duration check, so a market whose parsed span is 172800 seconds (48 hours,
well above the 24-hour bound) is still treated as live, contradicting the
claim that the legacy fallback excludes spans of 24 hours or longer. -/
theorem legacy_liveness_span_counterexample :
    is_market_live (some 0) (some 172800) 10 = true ∧
    (86400 ≤ (172800 : ℤ) - 0) := by
  constructor
  · decide
  · decide

/-- C3 (amended): the legacy fallback liveness filter is fail-closed (a market
whose start or end cannot be parsed is never treated as live) and keeps a
market exactly when start <= now < end; unlike the primary filter it performs
no span exclusion. -/
theorem legacy_liveness_fail_closed (start_dt end_dt : Option ℤ) (now : ℤ) :
    ((start_dt = none ∨ end_dt = none) → is_market_live start_dt end_dt now = false) ∧
    (∀ s e, start_dt = some s → end_dt = some e →
      (is_market_live start_dt end_dt now = true ↔ (s ≤ now ∧ now < e))) := by
  obtain _ | s := start_dt <;> obtain _ | e := end_dt <;>
    simp [is_market_live]

/-- Witness for legacy_liveness_fail_closed: a market running from 0 to 900
seconds is live at instant 10, and an unparseable start is not live. -/
theorem legacy_liveness_fail_closed_witness :
    is_market_live (some 0) (some 900) 10 = true ∧
    is_market_live none (some 900) 10 = false :=
  ⟨((legacy_liveness_fail_closed (some 0) (some 900) 10).2 0 900 rfl rfl).mpr (by decide),
   (legacy_liveness_fail_closed none (some 900) 10).1 (Or.inl rfl)⟩

/-- C7: with a positive price-to-beat and an available feed price, the trading
cycle is aborted by cross-validation exactly when the ratio current divided by
price-to-beat is strictly below 1/2 or strictly above 2; the boundary ratios
1/2 and 2 are accepted, while the ratio 49/100 aborts the cycle. -/
theorem cross_validation_ratio_bounds (cp price_to_beat : ℚ) (hpos : 0 < price_to_beat) :
    (trading_cycle_validation (some cp) price_to_beat = CycleOutcome.abort_cross_validation ↔
      (cp / price_to_beat < 1/2 ∨ 2 < cp / price_to_beat)) ∧
    (trading_cycle_validation (some cp) price_to_beat = CycleOutcome.proceed ↔
      ¬ (cp / price_to_beat < 1/2 ∨ 2 < cp / price_to_beat)) ∧
    (cp / price_to_beat = 1/2 →
      trading_cycle_validation (some cp) price_to_beat = CycleOutcome.proceed) ∧
    (cp / price_to_beat = 2 →
      trading_cycle_validation (some cp) price_to_beat = CycleOutcome.proceed) ∧
    (cp / price_to_beat = 49/100 →
      trading_cycle_validation (some cp) price_to_beat = CycleOutcome.abort_cross_validation) := by
  have hr : trading_cycle_validation (some cp) price_to_beat =
      (if cp / price_to_beat < 1/2 ∨ 2 < cp / price_to_beat then
        CycleOutcome.abort_cross_validation else CycleOutcome.proceed) := by
    simp only [trading_cycle_validation, if_pos hpos]
  rw [hr]
  by_cases h : cp / price_to_beat < 1/2 ∨ 2 < cp / price_to_beat
  · rw [if_pos h]
    refine ⟨iff_of_true rfl h, iff_of_false (by simp) (not_not_intro h),
      fun heq => ?_, fun heq => ?_, fun _ => rfl⟩
    · exfalso; rw [heq] at h; norm_num at h
    · exfalso; rw [heq] at h; norm_num at h
  · rw [if_neg h]
    exact ⟨iff_of_false (by simp) h, iff_of_true rfl h, fun _ => rfl, fun _ => rfl,
      fun heq => absurd (Or.inl (by rw [heq]; norm_num)) h⟩

/-- Witness for cross_validation_ratio_bounds: a feed price of 49 against a
price-to-beat of 100 (ratio exactly 49/100) aborts the cycle. -/
theorem cross_validation_ratio_bounds_witness :
    trading_cycle_validation (some 49) 100 = CycleOutcome.abort_cross_validation :=
  (cross_validation_ratio_bounds 49 100 (by decide)).2.2.2.2 rfl

/-- C2: for every non-empty list of live candidates the selection returns a
candidate of the list whose sort key (parsed end instant) is minimal; and for
two live candidates with distinct parsed ends, the one with the earlier end is
selected in either input order. -/
theorem select_best_live_market_earliest_end :
    (∀ l : List MarketCandidate, l ≠ [] →
      ∃ c, select_best_live_market l = some c ∧ c ∈ l ∧
        ∀ x ∈ l, candidate_sort_key c ≤ candidate_sort_key x) ∧
    (∀ a b : MarketCandidate, ∀ ea eb : ℤ, a.end_dt = some ea → b.end_dt = some eb →
      ea < eb →
      select_best_live_market [a, b] = some a ∧ select_best_live_market [b, a] = some a) := by
  have hle : ∀ a b, candidate_le a b = true ↔
      candidate_sort_key a ≤ candidate_sort_key b := by
    intro a b
    simp [candidate_le]
  have main : ∀ l : List MarketCandidate, l ≠ [] →
      ∃ c, select_best_live_market l = some c ∧ c ∈ l ∧
        ∀ x ∈ l, candidate_sort_key c ≤ candidate_sort_key x := by
    intro l hl
    have hperm : (l.mergeSort candidate_le).Perm l := List.mergeSort_perm l candidate_le
    have hsorted : List.Pairwise (fun a b => candidate_le a b = true)
        (l.mergeSort candidate_le) := by
      refine List.sorted_mergeSort ?_ ?_ l
      · intro a b c hab hbc
        exact (hle a c).mpr (le_trans ((hle a b).mp hab) ((hle b c).mp hbc))
      · intro a b
        rcases le_total (candidate_sort_key a) (candidate_sort_key b) with h | h <;>
          simp [candidate_le, h]
    have hne : l.mergeSort candidate_le ≠ [] := by
      intro h0
      have hlen := hperm.length_eq
      rw [h0] at hlen
      exact hl (List.length_eq_zero.mp hlen.symm)
    obtain ⟨c, t, hct⟩ : ∃ c t, l.mergeSort candidate_le = c :: t := by
      cases hms : l.mergeSort candidate_le with
      | nil => exact absurd hms hne
      | cons c t => exact ⟨c, t, rfl⟩
    refine ⟨c, ?_, ?_, ?_⟩
    · have hemp : l.isEmpty = false := by
        cases l with
        | nil => exact absurd rfl hl
        | cons _ _ => rfl
      simp [select_best_live_market, hemp, hct]
    · exact hperm.mem_iff.mp (hct ▸ List.mem_cons_self c t)
    · intro x hx
      have hxm : x ∈ l.mergeSort candidate_le := hperm.mem_iff.mpr hx
      rw [hct] at hxm
      rcases List.mem_cons.mp hxm with rfl | hxt
      · exact le_refl _
      · exact (hle c x).mp ((List.pairwise_cons.mp (hct ▸ hsorted)).1 x hxt)
  refine ⟨main, ?_⟩
  intro a b ea eb ha hb hlt
  have hka : candidate_sort_key a = (ea : WithTop ℤ) := by simp [candidate_sort_key, ha]
  have hkb : candidate_sort_key b = (eb : WithTop ℤ) := by simp [candidate_sort_key, hb]
  have hnot : ¬ candidate_sort_key b ≤ candidate_sort_key a := by
    rw [hka, hkb]
    simp only [WithTop.coe_le_coe]
    omega
  constructor
  · obtain ⟨c, hc, hmem, hmin⟩ := main [a, b] (by simp)
    rcases List.mem_pair.mp hmem with rfl | rfl
    · exact hc
    · exact absurd (hmin a (by simp)) hnot
  · obtain ⟨c, hc, hmem, hmin⟩ := main [b, a] (by simp)
    rcases List.mem_pair.mp hmem with rfl | rfl
    · exact absurd (hmin a (by simp)) hnot
    · exact hc

/-- Witness for select_best_live_market_earliest_end: of two live candidates
ending at instants 5 and 9, the one ending at 5 is selected in both orders. -/
theorem select_best_live_market_earliest_end_witness :
    select_best_live_market
        [⟨['a'], some 0, some 5⟩, ⟨['b'], some 0, some 9⟩] =
      some ⟨['a'], some 0, some 5⟩ ∧
    select_best_live_market
        [⟨['b'], some 0, some 9⟩, ⟨['a'], some 0, some 5⟩] =
      some ⟨['a'], some 0, some 5⟩ :=
  select_best_live_market_earliest_end.2
    ⟨['a'], some 0, some 5⟩ ⟨['b'], some 0, some 9⟩ 5 9 rfl rfl (by decide)

/-- C4: along any sequence of trade results, a WIN below the streak cap
doubles the stake clamped at max_stake, a WIN reaching the cap resets the
stake to base_stake, a LOSS resets stake to base and streak to 0 regardless of
the prior streak, and a SKIP changes nothing. -/
theorem stake_transition_rules (cfg : StakeConfig) (st0 : StakeState)
    (results : List TradeResult) :
    ∀ st, st = applyResults cfg st0 results →
      ((st.win_streak + 1 < cfg.max_win_streak →
          (update_after_result cfg st TradeResult.win).current_stake =
            (if cfg.max_stake < st.current_stake * 2 then cfg.max_stake
             else st.current_stake * 2)) ∧
       (cfg.max_win_streak ≤ st.win_streak + 1 →
          (update_after_result cfg st TradeResult.win).current_stake = cfg.base_stake) ∧
       ((update_after_result cfg st TradeResult.win).win_streak =
          min (st.win_streak + 1) cfg.max_win_streak) ∧
       ((update_after_result cfg st TradeResult.loss).current_stake = cfg.base_stake ∧
        (update_after_result cfg st TradeResult.loss).win_streak = 0) ∧
       (update_after_result cfg st TradeResult.skip = st)) := by
  intro st _
  refine ⟨?_, ?_, rfl, ⟨rfl, rfl⟩, rfl⟩
  · intro hlt
    show calculate_next_stake cfg st TradeResult.win = _
    simp only [calculate_next_stake]
    rw [if_neg (by omega)]
  · intro hcap
    show calculate_next_stake cfg st TradeResult.win = _
    simp only [calculate_next_stake]
    rw [if_pos hcap, ite_self]

/-- Witness for stake_transition_rules: from the initial state (stake 2,
streak 0) a WIN yields the doubled-or-clamped stake. -/
theorem stake_transition_rules_witness :
    (update_after_result ⟨2, 1024, 15, true⟩
        (applyResults ⟨2, 1024, 15, true⟩ ⟨2, 0⟩ []) TradeResult.win).current_stake =
      (if (1024 : ℚ) <
          (applyResults ⟨2, 1024, 15, true⟩ ⟨2, 0⟩ []).current_stake * 2 then (1024 : ℚ)
       else (applyResults ⟨2, 1024, 15, true⟩ ⟨2, 0⟩ []).current_stake * 2) :=
  (stake_transition_rules ⟨2, 1024, 15, true⟩ ⟨2, 0⟩ [] _ rfl).1 (by decide)

/-- C9: if base_stake is at most max_stake and the current state satisfies
the stake and streak bounds, then the state produced by update_after_result
satisfies them as well, for each of WIN, LOSS and SKIP. -/
theorem stake_invariant_preserved (cfg : StakeConfig) (st : StakeState) (r : TradeResult)
    (hbase : cfg.base_stake ≤ cfg.max_stake)
    (hstake : st.current_stake ≤ cfg.max_stake)
    (hstreak : st.win_streak ≤ cfg.max_win_streak) :
    (update_after_result cfg st r).current_stake ≤ cfg.max_stake ∧
    (update_after_result cfg st r).win_streak ≤ cfg.max_win_streak := by
  cases r
  case win =>
    constructor
    · show calculate_next_stake cfg st TradeResult.win ≤ cfg.max_stake
      simp only [calculate_next_stake]
      split_ifs with h1 h2 h3
      · exact hbase
      · exact hbase
      · exact le_refl _
      · exact le_of_not_lt h3
    · show min (st.win_streak + 1) cfg.max_win_streak ≤ cfg.max_win_streak
      exact min_le_right _ _
  case loss => exact ⟨hbase, Nat.zero_le _⟩
  case skip => exact ⟨hstake, hstreak⟩

/-- Witness for stake_invariant_preserved: the bounds hold after a WIN from
the state (stake 2, streak 0) under the default configuration. -/
theorem stake_invariant_preserved_witness :
    (update_after_result ⟨2, 1024, 15, true⟩ ⟨2, 0⟩ TradeResult.win).current_stake ≤
      (1024 : ℚ) ∧
    (update_after_result ⟨2, 1024, 15, true⟩ ⟨2, 0⟩ TradeResult.win).win_streak ≤ 15 :=
  stake_invariant_preserved ⟨2, 1024, 15, true⟩ ⟨2, 0⟩ TradeResult.win
    (by decide) (by decide) (by decide)

/-- C6 counterexample: on a one-row series (fewer than 2 data points) the
indicator computation does NOT return unknown for the EMAs and the ATR: the
recursive EMA seeded with the first value yields the single close (1), and
the ATR yields high - low (2), contradicting the claim that every indicator
is unknown below 2 data points. -/
theorem indicators_single_row_counterexample :
    ([(⟨1, 2, 0, 1⟩ : OhlcRow)] : List OhlcRow).length < 2 ∧
    (get_indicators [⟨1, 2, 0, 1⟩] 9 20 14 [3, 5]).ema_fast = some 1 ∧
    (get_indicators [⟨1, 2, 0, 1⟩] 9 20 14 [3, 5]).atr = some 2 := by
  refine ⟨by decide, rfl, ?_⟩
  show (ewm_mean 14 (true_range [⟨1, 2, 0, 1⟩])).getLast? = some 2
  norm_num [true_range, trTail, ewm_mean, ewmTail]

/-- C6 (amended): on the empty series every indicator is unknown; on a
one-row series the percent-returns (period at least 1) are unknown, but
EMA-fast and EMA-slow equal the single close and ATR equals high - low; the
computation is a total function by construction. -/
theorem indicators_insufficient_data (f s a : ℕ) (ps : List ℕ) :
    (get_indicators [] f s a ps = ⟨none, none, none, [], none⟩) ∧
    (∀ r : OhlcRow,
      (get_indicators [r] f s a ps).ema_fast = some r.close ∧
      (get_indicators [r] f s a ps).ema_slow = some r.close ∧
      (get_indicators [r] f s a ps).atr = some (r.high - r.low) ∧
      (∀ p ∈ ps, 1 ≤ p →
        (p, (none : Option ℚ)) ∈ (get_indicators [r] f s a ps).returns)) := by
  refine ⟨rfl, fun r => ⟨rfl, rfl, rfl, fun p hp hp1 => ?_⟩⟩
  show (p, (none : Option ℚ)) ∈ ps.map (fun q => (q, percent_return_last [r] q))
  refine List.mem_map.mpr ⟨p, hp, ?_⟩
  have hnone : percent_return_last [r] p = none := by
    simp only [percent_return_last, List.map_cons, List.map_nil, List.length_cons,
      List.length_nil]
    rw [if_neg (by omega)]
  rw [hnone]

/-- Witness for indicators_insufficient_data: concrete empty and one-row
series under the default indicator parameters. -/
theorem indicators_insufficient_data_witness :
    (get_indicators [] 9 20 14 [3, 5] = ⟨none, none, none, [], none⟩) ∧
    (get_indicators [⟨1, 2, 0, 1⟩] 9 20 14 [3, 5]).ema_slow = some 1 ∧
    (3, (none : Option ℚ)) ∈ (get_indicators [⟨1, 2, 0, 1⟩] 9 20 14 [3, 5]).returns :=
  ⟨(indicators_insufficient_data 9 20 14 [3, 5]).1,
   ((indicators_insufficient_data 9 20 14 [3, 5]).2 ⟨1, 2, 0, 1⟩).2.1,
   ((indicators_insufficient_data 9 20 14 [3, 5]).2 ⟨1, 2, 0, 1⟩).2.2.2 3
     (by decide) (by decide)⟩

/-- Characterization of the pagination loop: the number of requests is
bounded by the fuel, the requested offsets advance by the limit from the
starting offset with a constant limit parameter, the accumulated result is
the fold of the extraction over the issued requests, an early stop happens
only on an empty page or on reaching the candidate cap, and before every
non-final request the page was non-empty and the cap was not yet reached. -/
theorem events_pages_loop_spec (fetch : ℕ → ℕ → List EventItem) (pfx : List Char)
    (maxc limit : ℕ) :
    ∀ fuel offset acc reqs res,
      events_pages_loop fetch pfx maxc limit fuel offset acc = (reqs, res) →
      reqs.length ≤ fuel ∧
      reqs = (List.range reqs.length).map (fun i => (limit, offset + limit * i)) ∧
      res = reqs.foldl
        (fun a q => a ++ extract_candidates_from_events (fetch q.1 q.2) pfx) acc ∧
      (reqs.length < fuel →
        ∃ q, reqs.getLast? = some q ∧ (fetch q.1 q.2 = [] ∨ maxc ≤ res.length)) ∧
      (∀ j, j + 1 < reqs.length →
        fetch limit (offset + limit * j) ≠ [] ∧
        ((reqs.take (j + 1)).foldl
            (fun a q => a ++ extract_candidates_from_events (fetch q.1 q.2) pfx)
            acc).length < maxc) := by
  intro fuel
  induction fuel with
  | zero =>
      intro offset acc reqs res h
      simp only [events_pages_loop] at h
      injection h with h1 h2
      subst h1
      subst h2
      refine ⟨Nat.le_refl 0, by simp, by simp, ?_, ?_⟩
      · intro h0
        exact absurd h0 (by simp)
      · intro j hj
        exact absurd hj (by simp)
  | succ n ih =>
      intro offset acc reqs res h
      simp only [events_pages_loop] at h
      by_cases hemp : (fetch limit offset).isEmpty
      · rw [if_pos hemp] at h
        injection h with h1 h2
        subst h1
        subst h2
        have hfe : fetch limit offset = [] := List.isEmpty_iff.mp hemp
        refine ⟨by simp, by simp [List.range_succ], ?_, ?_, ?_⟩
        · simp [hfe, extract_candidates_from_events]
        · intro _
          exact ⟨(limit, offset), rfl, Or.inl hfe⟩
        · intro j hj
          simp at hj
      · rw [if_neg hemp] at h
        by_cases hcap :
            maxc ≤ (acc ++ extract_candidates_from_events (fetch limit offset) pfx).length
        · rw [if_pos hcap] at h
          injection h with h1 h2
          subst h1
          subst h2
          refine ⟨by simp, by simp [List.range_succ], by simp, ?_, ?_⟩
          · intro _
            exact ⟨(limit, offset), rfl, Or.inr hcap⟩
          · intro j hj
            simp at hj
        · rw [if_neg hcap] at h
          injection h with h1 h2
          subst h1
          subst h2
          obtain ⟨ih1, ih2, ih3, ih4, ih5⟩ := ih (offset + limit)
            (acc ++ extract_candidates_from_events (fetch limit offset) pfx)
            (events_pages_loop fetch pfx maxc limit n (offset + limit)
              (acc ++ extract_candidates_from_events (fetch limit offset) pfx)).1
            (events_pages_loop fetch pfx maxc limit n (offset + limit)
              (acc ++ extract_candidates_from_events (fetch limit offset) pfx)).2
            rfl
          set rest := events_pages_loop fetch pfx maxc limit n (offset + limit)
            (acc ++ extract_candidates_from_events (fetch limit offset) pfx) with hrest
          refine ⟨by simpa using Nat.succ_le_succ ih1, ?_, ?_, ?_, ?_⟩
          · rw [List.length_cons, List.range_succ_eq_map, List.map_cons, List.map_map]
            refine congrArg₂ _ (by simp) ?_
            conv_lhs => rw [ih2]
            refine List.map_congr_left ?_
            intro i _
            simp only [Function.comp_apply, Nat.succ_eq_add_one]
            congr 1
            ring
          · rw [List.foldl_cons]
            exact ih3
          · intro hlen
            rw [List.length_cons] at hlen
            obtain ⟨q, hq, hor⟩ := ih4 (by omega)
            have hne : rest.1 ≠ [] := by
              intro h0
              rw [h0] at hq
              exact Option.noConfusion hq
            refine ⟨q, ?_, hor⟩
            obtain ⟨b, t, hbt⟩ : ∃ b t, rest.1 = b :: t := by
              cases hbt : rest.1 with
              | nil => exact absurd hbt hne
              | cons b t => exact ⟨b, t, rfl⟩
            rw [hbt, List.getLast?_cons_cons, ← hbt, hq]
          · intro j hj
            rw [List.length_cons] at hj
            cases j with
            | zero =>
                refine ⟨by simpa [List.isEmpty_iff] using hemp, ?_⟩
                simp only [List.take_succ_cons, List.take_zero, List.foldl_cons,
                  List.foldl_nil]
                omega
            | succ j' =>
                obtain ⟨hne', hlt'⟩ := ih5 j' (by omega)
                constructor
                · have harith : offset + limit * (j' + 1) = offset + limit + limit * j' := by
                    ring
                  rw [harith]
                  exact hne'
                · simpa [List.take_succ_cons, List.foldl_cons] using hlt'

/-- C8: the primary discovery pagination issues at most max_pages requests,
each with limit 200 and offsets advancing by 200 from 0; it stops early only
once a page comes back empty or the accumulated prefix-matching candidates
reach max_candidates, and before every non-final request the fetched page was
non-empty and the candidate count was still below the cap. -/
theorem pagination_bounds_and_stride (fetch : ℕ → ℕ → List EventItem) (pfx : List Char)
    (max_candidates max_pages : ℕ) :
    ∀ reqs res,
      discover_events_pagination fetch pfx max_candidates max_pages = (reqs, res) →
      reqs.length ≤ max_pages ∧
      reqs = (List.range reqs.length).map (fun i => (200, 200 * i)) ∧
      (reqs.length < max_pages →
        ∃ q, reqs.getLast? = some q ∧ (fetch q.1 q.2 = [] ∨ max_candidates ≤ res.length)) ∧
      (∀ j, j + 1 < reqs.length →
        fetch 200 (200 * j) ≠ [] ∧
        ((reqs.take (j + 1)).foldl
            (fun a q => a ++ extract_candidates_from_events (fetch q.1 q.2) pfx)
            []).length < max_candidates) := by
  intro reqs res h
  obtain ⟨h1, h2, _, h4, h5⟩ := events_pages_loop_spec fetch pfx max_candidates 200
    max_pages 0 [] reqs res h
  simp only [Nat.zero_add] at h2 h5
  exact ⟨h1, h2, h4, h5⟩

/-- Witness for pagination_bounds_and_stride: against sampleFetch (one event
on the first page) with candidate cap 10 and page cap 5, exactly two pages
are requested, at offsets 0 and 200, and the early stop is justified. -/
theorem pagination_bounds_and_stride_witness :
    ([(200, 0), (200, 200)] : List (ℕ × ℕ)).length ≤ 5 ∧
    (∃ q, ([(200, 0), (200, 200)] : List (ℕ × ℕ)).getLast? = some q ∧
      (sampleFetch q.1 q.2 = [] ∨
        10 ≤ ([['b', 't', 'c', '-']] : List (List Char)).length)) := by
  have h := pagination_bounds_and_stride sampleFetch ['b'] 10 5
    [(200, 0), (200, 200)] [['b', 't', 'c', '-']] (by decide)
  exact ⟨h.1, h.2.2.1 (by decide)⟩

/-- Evaluation of Candle.update on an explicit candle: open keeps its first
value, high and low are running extrema, close is the incoming price, volume
is incremented, the timestamp is untouched. -/
theorem Candle.update_eval (t : ℤ) (o hi l cl : Option ℚ) (v : ℕ) (p : ℚ) :
    Candle.update ⟨t, o, hi, l, cl, v⟩ p =
      ⟨t, some (o.getD p),
        some (match hi with | none => p | some x => max x p),
        some (match l with | none => p | some x => min x p),
        some p, v + 1⟩ := by
  rcases hi with _ | b <;> rcases l with _ | c0
  · cases o <;> rfl
  · by_cases hc : p < c0
    · cases o <;> simp [Candle.update, hc, min_eq_right hc.le]
    · cases o <;> simp [Candle.update, hc, min_eq_left (le_of_not_lt hc)]
  · by_cases hb : b < p
    · cases o <;> simp [Candle.update, hb, max_eq_right hb.le]
    · cases o <;> simp [Candle.update, hb, max_eq_left (le_of_not_lt hb)]
  · by_cases hb : b < p <;> by_cases hc : p < c0
    · cases o <;> simp [Candle.update, hb, hc, max_eq_right hb.le, min_eq_right hc.le]
    · cases o <;> simp [Candle.update, hb, hc, max_eq_right hb.le,
        min_eq_left (le_of_not_lt hc)]
    · cases o <;> simp [Candle.update, hb, hc, max_eq_left (le_of_not_lt hb),
        min_eq_right hc.le]
    · cases o <;> simp [Candle.update, hb, hc, max_eq_left (le_of_not_lt hb),
        min_eq_left (le_of_not_lt hc)]

/-- Candle.update preserves the interval start. -/
theorem Candle.update_timestamp (c : Candle) (p : ℚ) :
    (c.update p).timestamp = c.timestamp := by
  rcases c with ⟨t, o, hi, l, cl, v⟩
  rw [Candle.update_eval]

/-- Candle.update increments the tick count. -/
theorem Candle.update_volume (c : Candle) (p : ℚ) :
    (c.update p).volume = c.volume + 1 := by
  rcases c with ⟨t, o, hi, l, cl, v⟩
  rw [Candle.update_eval]

/-- Candle.update always sets close to the incoming price. -/
theorem Candle.update_close (c : Candle) (p : ℚ) :
    (c.update p).close = some p := by
  rcases c with ⟨t, o, hi, l, cl, v⟩
  rw [Candle.update_eval]

/-- Candle.update sets open on the first tick only. -/
theorem Candle.update_open_none (c : Candle) (p : ℚ) (h : c.open_ = none) :
    (c.update p).open_ = some p := by
  rcases c with ⟨t, o, hi, l, cl, v⟩
  cases h
  rw [Candle.update_eval]
  rfl

/-- Candle.update never overwrites an already-set open. -/
theorem Candle.update_open_some (c : Candle) (p o : ℚ) (h : c.open_ = some o) :
    (c.update p).open_ = some o := by
  rcases c with ⟨t, oo, hi, l, cl, v⟩
  cases h
  rw [Candle.update_eval]
  rfl

/-- After an update the high is set, bounds the incoming price from above,
bounds the previous high, and is one of the two. -/
theorem Candle.update_high_bounds (c : Candle) (p : ℚ) :
    ∃ m, (c.update p).high = some m ∧ p ≤ m ∧
      (∀ x, c.high = some x → x ≤ m) ∧ (m = p ∨ c.high = some m) := by
  rcases c with ⟨t, o, hi, l, cl, v⟩
  rw [Candle.update_eval]
  cases hi with
  | none =>
      exact ⟨p, rfl, le_refl p, fun x hx => Option.noConfusion hx, Or.inl rfl⟩
  | some b =>
      refine ⟨max b p, rfl, le_max_right b p, ?_, ?_⟩
      · intro x hx
        cases hx
        exact le_max_left _ _
      · rcases le_total b p with hbp | hpb
        · exact Or.inl (max_eq_right hbp)
        · exact Or.inr (congrArg some (max_eq_left hpb).symm)

/-- After an update the low is set, bounds the incoming price from below,
bounds the previous low, and is one of the two. -/
theorem Candle.update_low_bounds (c : Candle) (p : ℚ) :
    ∃ m, (c.update p).low = some m ∧ m ≤ p ∧
      (∀ x, c.low = some x → m ≤ x) ∧ (m = p ∨ c.low = some m) := by
  rcases c with ⟨t, o, hi, l, cl, v⟩
  rw [Candle.update_eval]
  cases l with
  | none =>
      exact ⟨p, rfl, le_refl p, fun x hx => Option.noConfusion hx, Or.inl rfl⟩
  | some b =>
      refine ⟨min b p, rfl, min_le_right b p, ?_, ?_⟩
      · intro x hx
        cases hx
        exact min_le_left _ _
      · rcases le_total b p with hbp | hpb
        · exact Or.inr (congrArg some (min_eq_left hbp).symm)
        · exact Or.inl (min_eq_right hpb)

/-- A single update makes a candle complete: all four fields are set. -/
theorem Candle.update_is_complete (c : Candle) (p : ℚ) :
    (c.update p).is_complete = true := by
  rcases c with ⟨t, o, hi, l, cl, v⟩
  rw [Candle.update_eval]
  rfl

/-- Folding ticks into a candle preserves its interval start. -/
theorem foldl_update_timestamp (ps : List ℚ) (c : Candle) :
    (ps.foldl Candle.update c).timestamp = c.timestamp := by
  induction ps generalizing c with
  | nil => rfl
  | cons p ps ih => rw [List.foldl_cons, ih, Candle.update_timestamp]

/-- Folding ticks into a candle adds their number to the volume. -/
theorem foldl_update_volume (ps : List ℚ) (c : Candle) :
    (ps.foldl Candle.update c).volume = c.volume + ps.length := by
  induction ps generalizing c with
  | nil => rfl
  | cons p ps ih =>
      rw [List.foldl_cons, ih, Candle.update_volume, List.length_cons]
      omega

/-- After folding a non-empty price list, close is the last price. -/
theorem foldl_update_close (ps : List ℚ) (c : Candle) (hne : ps ≠ []) :
    (ps.foldl Candle.update c).close = ps.getLast? := by
  induction ps generalizing c with
  | nil => exact absurd rfl hne
  | cons p ps ih =>
      rw [List.foldl_cons]
      cases ps with
      | nil => simp [Candle.update_close]
      | cons q qs =>
          rw [ih (c.update p) (by simp), List.getLast?_cons_cons]

/-- Folding ticks never overwrites an already-set open. -/
theorem foldl_update_open_some (ps : List ℚ) (c : Candle) (o : ℚ)
    (h : c.open_ = some o) : (ps.foldl Candle.update c).open_ = some o := by
  induction ps generalizing c with
  | nil => exact h
  | cons p ps ih =>
      rw [List.foldl_cons]
      exact ih (c.update p) (Candle.update_open_some c p o h)

/-- Folding a non-empty price list into a candle with unset open sets open to
the first price. -/
theorem foldl_update_open_none (ps : List ℚ) (c : Candle) (h : c.open_ = none)
    (hne : ps ≠ []) : (ps.foldl Candle.update c).open_ = ps.head? := by
  cases ps with
  | nil => exact absurd rfl hne
  | cons p ps =>
      rw [List.foldl_cons, List.head?_cons]
      exact foldl_update_open_some ps (c.update p) p (Candle.update_open_none c p h)

/-- After folding a non-empty price list, high is set, bounds every folded
price and the initial high, and comes from one of them. -/
theorem foldl_update_high (ps : List ℚ) (c : Candle) (hne : ps ≠ []) :
    ∃ m, (ps.foldl Candle.update c).high = some m ∧
      (m ∈ ps ∨ c.high = some m) ∧ (∀ x ∈ ps, x ≤ m) ∧
      (∀ x, c.high = some x → x ≤ m) := by
  induction ps generalizing c with
  | nil => exact absurd rfl hne
  | cons p ps ih =>
      rw [List.foldl_cons]
      obtain ⟨m0, hm0, hp0, hold0, hor0⟩ := Candle.update_high_bounds c p
      by_cases hps : ps = []
      · subst hps
        simp only [List.foldl_nil]
        refine ⟨m0, hm0, ?_, ?_, hold0⟩
        · rcases hor0 with rfl | hc
          · exact Or.inl (by simp)
          · exact Or.inr hc
        · intro x hx
          rw [List.mem_singleton.mp hx]
          exact hp0
      · obtain ⟨m, hm, hmem, hub, hcle⟩ := ih (c.update p) hps
        refine ⟨m, hm, ?_, ?_, ?_⟩
        · rcases hmem with h1 | h1
          · exact Or.inl (List.mem_cons_of_mem _ h1)
          · rw [hm0] at h1
            obtain rfl : m0 = m := Option.some.inj h1
            rcases hor0 with rfl | hc
            · exact Or.inl (List.mem_cons_self _ _)
            · exact Or.inr hc
        · intro x hx
          rcases List.mem_cons.mp hx with rfl | h1
          · exact le_trans hp0 (hcle m0 hm0)
          · exact hub x h1
        · intro x hx
          exact le_trans (hold0 x hx) (hcle m0 hm0)

/-- After folding a non-empty price list, low is set, bounds every folded
price and the initial low from below, and comes from one of them. -/
theorem foldl_update_low (ps : List ℚ) (c : Candle) (hne : ps ≠ []) :
    ∃ m, (ps.foldl Candle.update c).low = some m ∧
      (m ∈ ps ∨ c.low = some m) ∧ (∀ x ∈ ps, m ≤ x) ∧
      (∀ x, c.low = some x → m ≤ x) := by
  induction ps generalizing c with
  | nil => exact absurd rfl hne
  | cons p ps ih =>
      rw [List.foldl_cons]
      obtain ⟨m0, hm0, hp0, hold0, hor0⟩ := Candle.update_low_bounds c p
      by_cases hps : ps = []
      · subst hps
        simp only [List.foldl_nil]
        refine ⟨m0, hm0, ?_, ?_, hold0⟩
        · rcases hor0 with rfl | hc
          · exact Or.inl (by simp)
          · exact Or.inr hc
        · intro x hx
          rw [List.mem_singleton.mp hx]
          exact hp0
      · obtain ⟨m, hm, hmem, hub, hcle⟩ := ih (c.update p) hps
        refine ⟨m, hm, ?_, ?_, ?_⟩
        · rcases hmem with h1 | h1
          · exact Or.inl (List.mem_cons_of_mem _ h1)
          · rw [hm0] at h1
            obtain rfl : m0 = m := Option.some.inj h1
            rcases hor0 with rfl | hc
            · exact Or.inl (List.mem_cons_self _ _)
            · exact Or.inr hc
        · intro x hx
          rcases List.mem_cons.mp hx with rfl | h1
          · exact le_trans (hcle m0 hm0) hp0
          · exact hub x h1
        · intro x hx
          exact le_trans (hcle m0 hm0) (hold0 x hx)

/-- The candle of a run is the fold of the run's prices. -/
theorem candleOfRun_eq (T : ℤ) (run : List (ℚ × ℤ)) :
    candleOfRun T run = (run.map Prod.fst).foldl Candle.update (Candle.mkEmpty T) := by
  rw [candleOfRun, List.foldl_map]

/-- The candle of a run carries the run's interval start. -/
theorem candleOfRun_timestamp (T : ℤ) (run : List (ℚ × ℤ)) :
    (candleOfRun T run).timestamp = T := by
  rw [candleOfRun_eq, foldl_update_timestamp]
  rfl

/-- The candle of a run counts exactly the run's ticks. -/
theorem candleOfRun_volume (T : ℤ) (run : List (ℚ × ℤ)) :
    (candleOfRun T run).volume = run.length := by
  rw [candleOfRun_eq, foldl_update_volume]
  simp [Candle.mkEmpty]

/-- Appending a tick to a run updates the run's candle with its price. -/
theorem candleOfRun_concat (T : ℤ) (run : List (ℚ × ℤ)) (t : ℚ × ℤ) :
    candleOfRun T (run ++ [t]) = (candleOfRun T run).update t.1 := by
  rw [candleOfRun, candleOfRun, List.foldl_concat]

/-- The candle of a non-empty run is complete. -/
theorem candleOfRun_complete (T : ℤ) (run : List (ℚ × ℤ)) (hne : run ≠ []) :
    (candleOfRun T run).is_complete = true := by
  rcases List.eq_nil_or_concat run with rfl | ⟨run0, t, rfl⟩
  · exact absurd rfl hne
  · rw [List.concat_eq_append, candleOfRun_concat]
    exact Candle.update_is_complete _ _

/-- Trimming with cap 0 keeps everything: Python candles[-0:] is the whole
list. -/
theorem trim_candles_zero (cs : List Candle) : trim_candles 0 cs = cs := by
  unfold trim_candles
  split_ifs <;> first | rfl | omega

/-- For a positive cap, trimming keeps the last max_candles entries. -/
theorem trim_candles_eq_rev_take (mc : ℕ) (cs : List Candle) (hmc : mc ≠ 0) :
    trim_candles mc cs = (cs.reverse.take mc).reverse := by
  unfold trim_candles
  by_cases hlt : mc < cs.length
  · rw [if_pos hlt, if_neg hmc]
    have h1 : (cs.drop (cs.length - mc)).reverse = cs.reverse.take mc := by
      rw [List.reverse_drop]
      congr 1
      omega
    calc cs.drop (cs.length - mc)
        = (cs.drop (cs.length - mc)).reverse.reverse := (List.reverse_reverse _).symm
      _ = (cs.reverse.take mc).reverse := by rw [h1]
  · rw [if_neg hlt, List.take_of_length_le (by rw [List.length_reverse]; omega),
      List.reverse_reverse]

/-- Trimming, appending and trimming again is the same as trimming the full
appended history: iterated trimming loses nothing beyond the bound. -/
theorem trim_trim_append (mc : ℕ) (xs : List Candle) (c : Candle) :
    trim_candles mc (trim_candles mc xs ++ [c]) = trim_candles mc (xs ++ [c]) := by
  rcases Nat.eq_zero_or_pos mc with rfl | hpos
  · rw [trim_candles_zero, trim_candles_zero, trim_candles_zero]
  · obtain ⟨k, rfl⟩ : ∃ k, mc = k + 1 := ⟨mc - 1, by omega⟩
    rw [trim_candles_eq_rev_take _ _ (by omega), trim_candles_eq_rev_take _ _ (by omega),
      trim_candles_eq_rev_take _ _ (by omega), List.reverse_concat, List.reverse_concat,
      List.reverse_reverse, List.take_succ_cons, List.take_succ_cons, List.take_take,
      min_eq_left (Nat.le_succ k)]

/-- Evaluation of add_tick when there is no in-progress candle: a fresh
candle for the tick's interval is created and updated. -/
theorem add_tick_fresh (i : ℤ) (mc : ℕ) (cs : List Candle) (p : ℚ) (ts : ℤ) :
    CandleBuilder.add_tick ⟨i, mc, cs, none⟩ p ts =
      ⟨i, mc, cs, some ((Candle.mkEmpty (round_to_interval i ts)).update p)⟩ :=
  rfl

/-- Evaluation of add_tick when the tick falls in the in-progress candle's
interval: the candle is updated in place. -/
theorem add_tick_same (i : ℤ) (mc : ℕ) (cs : List Candle) (c : Candle) (p : ℚ) (ts : ℤ)
    (h : c.timestamp = round_to_interval i ts) :
    CandleBuilder.add_tick ⟨i, mc, cs, some c⟩ p ts = ⟨i, mc, cs, some (c.update p)⟩ := by
  simp [CandleBuilder.add_tick, h]

/-- Evaluation of add_tick on an interval rollover with a complete
in-progress candle: the candle is appended to the trimmed history and a fresh
updated candle begins. -/
theorem add_tick_roll (i : ℤ) (mc : ℕ) (cs : List Candle) (c : Candle) (p : ℚ) (ts : ℤ)
    (hne : c.timestamp ≠ round_to_interval i ts) (hc : c.is_complete = true) :
    CandleBuilder.add_tick ⟨i, mc, cs, some c⟩ p ts =
      ⟨i, mc, trim_candles mc (cs ++ [c]),
        some ((Candle.mkEmpty (round_to_interval i ts)).update p)⟩ := by
  simp [CandleBuilder.add_tick, hne, hc]

/-- Unfolding one tick of the run decomposition. -/
theorem tickRuns_concat (i : ℤ) (ts : List (ℚ × ℤ)) (t : ℚ × ℤ) :
    tickRuns i (ts ++ [t]) = runStep i (tickRuns i ts) t := by
  rw [tickRuns, tickRuns, List.foldl_concat]

/-- Every run of the decomposition holds at least one tick. -/
theorem tickRuns_nonempty (i : ℤ) (ts : List (ℚ × ℤ)) :
    ∀ r ∈ tickRuns i ts, r.2 ≠ [] := by
  induction ts using List.reverseRecOn with
  | nil =>
      intro r hr
      simp [tickRuns] at hr
  | append_singleton ts t ih =>
      intro r hr
      rw [tickRuns_concat] at hr
      rcases List.eq_nil_or_concat (tickRuns i ts) with hnil | ⟨rs0, r0, hcat⟩
      · rw [hnil] at hr
        simp only [runStep, List.getLast?_nil, List.mem_singleton] at hr
        subst hr
        simp
      · rw [List.concat_eq_append] at hcat
        rw [hcat] at hr
        simp only [runStep, List.getLast?_concat] at hr
        by_cases hT : r0.1 = round_to_interval i t.2
        · rw [if_pos hT, List.dropLast_concat] at hr
          rcases List.mem_append.mp hr with h1 | h1
          · have hmem : r ∈ tickRuns i ts := by
              rw [hcat]
              exact List.mem_append_left _ h1
            exact ih r hmem
          · rw [List.mem_singleton.mp h1]
            simp
        · rw [if_neg hT] at hr
          rcases List.mem_append.mp hr with h1 | h1
          · have hmem : r ∈ tickRuns i ts := by
              rw [hcat]
              exact h1
            exact ih r hmem
          · rw [List.mem_singleton.mp h1]
            simp

/-- Every tick of a run falls in the run's interval. -/
theorem tickRuns_rounds (i : ℤ) (ts : List (ℚ × ℤ)) :
    ∀ r ∈ tickRuns i ts, ∀ t ∈ r.2, round_to_interval i t.2 = r.1 := by
  induction ts using List.reverseRecOn with
  | nil =>
      intro r hr
      simp [tickRuns] at hr
  | append_singleton ts t ih =>
      intro r hr
      rw [tickRuns_concat] at hr
      rcases List.eq_nil_or_concat (tickRuns i ts) with hnil | ⟨rs0, r0, hcat⟩
      · rw [hnil] at hr
        simp only [runStep, List.getLast?_nil, List.mem_singleton] at hr
        subst hr
        intro u hu
        rw [List.mem_singleton.mp hu]
      · rw [List.concat_eq_append] at hcat
        rw [hcat] at hr
        simp only [runStep, List.getLast?_concat] at hr
        by_cases hT : r0.1 = round_to_interval i t.2
        · rw [if_pos hT, List.dropLast_concat] at hr
          rcases List.mem_append.mp hr with h1 | h1
          · have hmem : r ∈ tickRuns i ts := by
              rw [hcat]
              exact List.mem_append_left _ h1
            exact ih r hmem
          · rw [List.mem_singleton.mp h1]
            intro u hu
            rcases List.mem_append.mp hu with h2 | h2
            · have hmem : r0 ∈ tickRuns i ts := by
                rw [hcat]
                exact List.mem_append_right _ (by simp)
              exact ih r0 hmem u h2
            · rw [List.mem_singleton.mp h2]
              exact hT.symm
        · rw [if_neg hT] at hr
          rcases List.mem_append.mp hr with h1 | h1
          · have hmem : r ∈ tickRuns i ts := by
              rw [hcat]
              exact h1
            exact ih r hmem
          · rw [List.mem_singleton.mp h1]
            intro u hu
            rw [List.mem_singleton.mp hu]

/-- The runs of the decomposition concatenate back to the tick stream: no
tick is lost or duplicated. -/
theorem tickRuns_flatten (i : ℤ) (ts : List (ℚ × ℤ)) :
    ((tickRuns i ts).map (fun r => r.2)).flatten = ts := by
  induction ts using List.reverseRecOn with
  | nil => rfl
  | append_singleton ts t ih =>
      rw [tickRuns_concat]
      rcases List.eq_nil_or_concat (tickRuns i ts) with hnil | ⟨rs0, r0, hcat⟩
      · rw [hnil] at ih
        simp only [List.map_nil, List.flatten_nil] at ih
        rw [hnil, ← ih]
        simp [runStep]
      · rw [List.concat_eq_append] at hcat
        rw [hcat] at ih ⊢
        simp only [runStep, List.getLast?_concat]
        by_cases hT : r0.1 = round_to_interval i t.2
        · rw [if_pos hT, List.dropLast_concat]
          rw [List.map_append, List.flatten_append] at ih ⊢
          simp only [List.map_cons, List.map_nil, List.flatten_cons, List.flatten_nil,
            List.append_nil] at ih ⊢
          rw [← List.append_assoc, ih]
        · rw [if_neg hT]
          rw [List.map_append, List.flatten_append, ih]
          simp

/-- Adjacent runs of the decomposition have distinct intervals: each run is
maximal. -/
theorem tickRuns_chain (i : ℤ) (ts : List (ℚ × ℤ)) :
    List.Chain' (fun a b : ℤ × List (ℚ × ℤ) => a.1 ≠ b.1) (tickRuns i ts) := by
  induction ts using List.reverseRecOn with
  | nil => simp [tickRuns]
  | append_singleton ts t ih =>
      rw [tickRuns_concat]
      rcases List.eq_nil_or_concat (tickRuns i ts) with hnil | ⟨rs0, r0, hcat⟩
      · rw [hnil]
        simp [runStep]
      · rw [List.concat_eq_append] at hcat
        rw [hcat] at ih ⊢
        simp only [runStep, List.getLast?_concat]
        by_cases hT : r0.1 = round_to_interval i t.2
        · rw [if_pos hT, List.dropLast_concat]
          rw [List.chain'_append] at ih ⊢
          obtain ⟨ih1, ih2, ih3⟩ := ih
          refine ⟨ih1, List.chain'_singleton _, ?_⟩
          intro x hx y hy
          have hy' : (r0.1, r0.2 ++ [t]) = y := by simpa using hy
          subst hy'
          exact ih3 x hx r0 (by simp)
        · rw [if_neg hT, List.chain'_append]
          refine ⟨ih, List.chain'_singleton _, ?_⟩
          intro x hx y hy
          have hx' : r0 = x := by
            rw [List.getLast?_concat] at hx
            simpa using hx
          have hy' : (round_to_interval i t.2, [t]) = y := by simpa using hy
          subst hx'
          subst hy'
          exact hT

/-- Trimming the empty history is a no-op. -/
theorem trim_candles_nil (mc : ℕ) : trim_candles mc [] = [] := by
  simp [trim_candles]

/-- The builder state after any tick stream: the in-progress candle is the
candle of the last run, and the history holds the candles of all previous
runs, trimmed to the size bound. -/
theorem feedTicks_state (i : ℤ) (mc : ℕ) (ts : List (ℚ × ℤ)) :
    (feedTicks (CandleBuilder.init i mc) ts).interval_seconds = i ∧
    (feedTicks (CandleBuilder.init i mc) ts).max_candles = mc ∧
    (feedTicks (CandleBuilder.init i mc) ts).current_candle =
      ((tickRuns i ts).getLast?).map (fun r => candleOfRun r.1 r.2) ∧
    (feedTicks (CandleBuilder.init i mc) ts).candles =
      trim_candles mc (((tickRuns i ts).dropLast).map (fun r => candleOfRun r.1 r.2)) := by
  induction ts using List.reverseRecOn with
  | nil =>
      refine ⟨rfl, rfl, rfl, ?_⟩
      simp [feedTicks, CandleBuilder.init, tickRuns, trim_candles_nil]
  | append_singleton ts t ih =>
      obtain ⟨ih1, ih2, ih3, ih4⟩ := ih
      have hfeed : feedTicks (CandleBuilder.init i mc) (ts ++ [t]) =
          (feedTicks (CandleBuilder.init i mc) ts).add_tick t.1 t.2 := by
        rw [feedTicks, feedTicks, List.foldl_concat]
      cases hb : feedTicks (CandleBuilder.init i mc) ts with
      | mk bi bmc bcs bcur =>
        rw [hb] at ih1 ih2 ih3 ih4 hfeed
        dsimp only at ih1 ih2 ih3 ih4
        rw [hfeed, ih1, ih2, ih3, ih4, tickRuns_concat]
        rcases List.eq_nil_or_concat (tickRuns i ts) with hnil | ⟨rs0, r0, hcat⟩
        · rw [hnil]
          simp only [List.getLast?_nil, Option.map_none', List.dropLast_nil, List.map_nil,
            trim_candles_nil]
          rw [add_tick_fresh]
          refine ⟨rfl, rfl, ?_, ?_⟩
          · simp only [runStep, List.getLast?_nil]
            rfl
          · simp only [runStep, List.getLast?_nil]
            simp [trim_candles_nil]
        · rw [List.concat_eq_append] at hcat
          rw [hcat]
          simp only [List.getLast?_concat, List.dropLast_concat, Option.map_some']
          by_cases hT : r0.1 = round_to_interval i t.2
          · rw [add_tick_same i mc _ _ t.1 t.2 (by rw [candleOfRun_timestamp]; exact hT)]
            refine ⟨rfl, rfl, ?_, ?_⟩
            · simp only [runStep, List.getLast?_concat, if_pos hT, List.dropLast_concat,
                List.getLast?_concat, Option.map_some']
              rw [candleOfRun_concat]
            · simp only [runStep, List.getLast?_concat, if_pos hT, List.dropLast_concat]
          · have hr0mem : r0 ∈ tickRuns i ts := by
              rw [hcat]
              exact List.mem_append_right _ (by simp)
            have hcomp : (candleOfRun r0.1 r0.2).is_complete = true :=
              candleOfRun_complete _ _ (tickRuns_nonempty i ts r0 hr0mem)
            have hne' : (candleOfRun r0.1 r0.2).timestamp ≠ round_to_interval i t.2 := by
              rw [candleOfRun_timestamp]
              exact hT
            rw [add_tick_roll i mc _ _ t.1 t.2 hne' hcomp]
            refine ⟨rfl, rfl, ?_, ?_⟩
            · simp only [runStep, List.getLast?_concat, if_neg hT]
              rfl
            · simp only [runStep, List.getLast?_concat, if_neg hT, List.dropLast_concat]
              rw [trim_trim_append, List.map_append]
              rfl

/-- Trimming only drops entries, never adds them. -/
theorem trim_candles_subset (mc : ℕ) (l : List Candle) : trim_candles mc l ⊆ l := by
  unfold trim_candles
  split_ifs
  · exact fun x hx => hx
  · exact (List.drop_sublist _ _).subset
  · exact fun x hx => hx

/-- C5 counterexample: with interval 60, feeding the ticks (10 at 0 s), (20
at 61 s), (5 at 2 s) revisits interval 0 after an intervening interval; the
prices seen in interval 0 are [10, 5] with first price 10 and maximum 10, yet
the candle now held for interval 0 has open 5 and high 5 - so within the
interval, open is not the first price and high is not the running maximum of
all prices seen in that interval. -/
theorem candle_interval_revisit_counterexample :
    pricesInInterval 60 [(10, 0), (20, 61), (5, 2)] 0 = [10, 5] ∧
    (feedTicks (CandleBuilder.init 60 1000) [(10, 0), (20, 61), (5, 2)]).current_candle =
      some ⟨0, some 5, some 5, some 5, some 5, 1⟩ ∧
    (5 : ℚ) < 10 := by
  refine ⟨by decide, by decide, by decide⟩

/-- C5 (amended): the tick stream decomposes into maximal runs of
consecutive same-interval ticks (the unit from which one candle is built);
the in-progress candle is the candle of the last run, and within each run
the first tick sets open, high and low are the true running maximum and
minimum of the run's prices, close is the last price, the volume counts the
run's ticks, and the candle is complete (all four fields set) since it
absorbed at least one tick. -/
theorem candle_run_ohlc (i : ℤ) (mc : ℕ) (ts : List (ℚ × ℤ)) :
    ((tickRuns i ts).map (fun r => r.2)).flatten = ts ∧
    List.Chain' (fun a b : ℤ × List (ℚ × ℤ) => a.1 ≠ b.1) (tickRuns i ts) ∧
    (feedTicks (CandleBuilder.init i mc) ts).current_candle =
      ((tickRuns i ts).getLast?).map (fun r => candleOfRun r.1 r.2) ∧
    (∀ r ∈ tickRuns i ts,
      r.2 ≠ [] ∧
      (∀ t ∈ r.2, round_to_interval i t.2 = r.1) ∧
      (candleOfRun r.1 r.2).open_ = (r.2.map Prod.fst).head? ∧
      (candleOfRun r.1 r.2).close = (r.2.map Prod.fst).getLast? ∧
      (∃ m, (candleOfRun r.1 r.2).high = some m ∧ m ∈ r.2.map Prod.fst ∧
        ∀ x ∈ r.2.map Prod.fst, x ≤ m) ∧
      (∃ m, (candleOfRun r.1 r.2).low = some m ∧ m ∈ r.2.map Prod.fst ∧
        ∀ x ∈ r.2.map Prod.fst, m ≤ x) ∧
      (candleOfRun r.1 r.2).volume = r.2.length ∧
      (candleOfRun r.1 r.2).is_complete = true) := by
  refine ⟨tickRuns_flatten i ts, tickRuns_chain i ts, (feedTicks_state i mc ts).2.2.1, ?_⟩
  intro r hr
  have hne := tickRuns_nonempty i ts r hr
  have hmapne : r.2.map Prod.fst ≠ [] := by simpa using hne
  refine ⟨hne, tickRuns_rounds i ts r hr, ?_, ?_, ?_, ?_, candleOfRun_volume _ _,
    candleOfRun_complete _ _ hne⟩
  · rw [candleOfRun_eq]
    exact foldl_update_open_none _ _ rfl hmapne
  · rw [candleOfRun_eq]
    exact foldl_update_close _ _ hmapne
  · rw [candleOfRun_eq]
    obtain ⟨m, hm, hmem, hub, _⟩ :=
      foldl_update_high (r.2.map Prod.fst) (Candle.mkEmpty r.1) hmapne
    refine ⟨m, hm, ?_, hub⟩
    rcases hmem with h | h
    · exact h
    · exact absurd h (by simp [Candle.mkEmpty])
  · rw [candleOfRun_eq]
    obtain ⟨m, hm, hmem, hlb, _⟩ :=
      foldl_update_low (r.2.map Prod.fst) (Candle.mkEmpty r.1) hmapne
    refine ⟨m, hm, ?_, hlb⟩
    rcases hmem with h | h
    · exact h
    · exact absurd h (by simp [Candle.mkEmpty])

/-- Witness for candle_run_ohlc: two ticks in the interval starting at 0
form one run whose candle opens at the first price, closes at the last and
counts both ticks. -/
theorem candle_run_ohlc_witness :
    (candleOfRun 0 [(10, 0), (12, 30)]).open_ = some 10 ∧
    (candleOfRun 0 [(10, 0), (12, 30)]).close = some 12 ∧
    (candleOfRun 0 [(10, 0), (12, 30)]).volume = 2 := by
  have h := (candle_run_ohlc 60 1000 [(10, 0), (12, 30)]).2.2.2
    (0, [(10, 0), (12, 30)]) (by decide)
  exact ⟨h.2.2.1, h.2.2.2.1, h.2.2.2.2.2.2.1⟩

/-- C10: a candle built from ticks is complete exactly when it absorbed at
least one tick (its four fields are then all set); the builder's history is
exactly the candles of all superseded runs trimmed to the size bound - the
completeness guard never discards a candle that received ticks - and every
candle in the history is complete, so get_candles reports the whole
history. -/
theorem candle_completeness_guard (i : ℤ) (mc : ℕ) (ts : List (ℚ × ℤ)) :
    (∀ T : ℤ, ∀ run : List (ℚ × ℤ),
      ((candleOfRun T run).is_complete = true ↔ run ≠ []) ∧
      (1 ≤ (candleOfRun T run).volume ↔ run ≠ [])) ∧
    (∀ T : ℤ, (Candle.mkEmpty T).is_complete = false) ∧
    ((feedTicks (CandleBuilder.init i mc) ts).candles =
      trim_candles mc (((tickRuns i ts).dropLast).map (fun r => candleOfRun r.1 r.2))) ∧
    (∀ c ∈ (feedTicks (CandleBuilder.init i mc) ts).candles,
      c.is_complete = true ∧ 1 ≤ c.volume) ∧
    get_candles (feedTicks (CandleBuilder.init i mc) ts) =
      (feedTicks (CandleBuilder.init i mc) ts).candles := by
  have hist := (feedTicks_state i mc ts).2.2.2
  have hmem : ∀ c ∈ (feedTicks (CandleBuilder.init i mc) ts).candles,
      c.is_complete = true ∧ 1 ≤ c.volume := by
    intro c hc
    rw [hist] at hc
    have hc2 := trim_candles_subset _ _ hc
    obtain ⟨r, hr, rfl⟩ := List.mem_map.mp hc2
    have hrs : r ∈ tickRuns i ts := (List.dropLast_sublist _).subset hr
    have hne := tickRuns_nonempty i ts r hrs
    refine ⟨candleOfRun_complete _ _ hne, ?_⟩
    rw [candleOfRun_volume]
    exact List.length_pos.mpr hne
  refine ⟨?_, fun T => rfl, hist, hmem, ?_⟩
  · intro T run
    constructor
    · constructor
      · intro hc hrun
        subst hrun
        simp [candleOfRun, Candle.mkEmpty, Candle.is_complete] at hc
      · exact candleOfRun_complete T run
    · rw [candleOfRun_volume]
      exact ⟨fun h => List.length_pos.mp h, fun h => List.length_pos.mpr h⟩
  · exact List.filter_eq_self.mpr fun c hc => (hmem c hc).1

/-- Witness for candle_completeness_guard: a one-tick candle is complete,
and the superseded interval-0 candle survives in the history after a tick in
the next interval. -/
theorem candle_completeness_guard_witness :
    (candleOfRun 0 [(10, 0)]).is_complete = true ∧
    (feedTicks (CandleBuilder.init 60 1000) [(10, 0), (20, 61)]).candles =
      trim_candles 1000 (((tickRuns 60 [(10, 0), (20, 61)]).dropLast).map
        (fun r => candleOfRun r.1 r.2)) :=
  ⟨((candle_completeness_guard 60 1000 []).1 0 [(10, 0)]).1.mpr (by decide),
   (candle_completeness_guard 60 1000 [(10, 0), (20, 61)]).2.2.1⟩
